import Mathlib

/-!
Verification of the querygraph repository: a shallow embedding of the
frame-manipulation stages (`manipulation/set/manipulation_set.py`), the
query-template engine (`query/template/query_template.py`) and the query-node
graph operations (`query/node/query_node.py`), with theorems settling the
specification claims about them.
-/

namespace QuerygraphProof

/-- A tagged cell value, the model of the Python values stored in frame
columns (`null`, integers, strings, booleans and nested lists). -/
inductive Val where
  | null : Val
  | vint (n : Int) : Val
  | vstr (s : String) : Val
  | vbool (b : Bool) : Val
  | vlist (l : List Val) : Val

mutual

/-- Decidable equality on values (the derive handler does not support the
nested list occurrence). -/
def Val.decEq : (a b : Val) → Decidable (a = b)
  | .null, .null => isTrue rfl
  | .vint a, .vint b =>
      if h : a = b then isTrue (h ▸ rfl)
      else isFalse (fun he => h (Val.vint.inj he))
  | .vstr a, .vstr b =>
      if h : a = b then isTrue (h ▸ rfl)
      else isFalse (fun he => h (Val.vstr.inj he))
  | .vbool a, .vbool b =>
      if h : a = b then isTrue (h ▸ rfl)
      else isFalse (fun he => h (Val.vbool.inj he))
  | .vlist a, .vlist b =>
      match Val.decEqList a b with
      | isTrue h => isTrue (h ▸ rfl)
      | isFalse h => isFalse (fun he => h (Val.vlist.inj he))
  | .null, .vint _ => isFalse (fun h => Val.noConfusion h)
  | .null, .vstr _ => isFalse (fun h => Val.noConfusion h)
  | .null, .vbool _ => isFalse (fun h => Val.noConfusion h)
  | .null, .vlist _ => isFalse (fun h => Val.noConfusion h)
  | .vint _, .null => isFalse (fun h => Val.noConfusion h)
  | .vint _, .vstr _ => isFalse (fun h => Val.noConfusion h)
  | .vint _, .vbool _ => isFalse (fun h => Val.noConfusion h)
  | .vint _, .vlist _ => isFalse (fun h => Val.noConfusion h)
  | .vstr _, .null => isFalse (fun h => Val.noConfusion h)
  | .vstr _, .vint _ => isFalse (fun h => Val.noConfusion h)
  | .vstr _, .vbool _ => isFalse (fun h => Val.noConfusion h)
  | .vstr _, .vlist _ => isFalse (fun h => Val.noConfusion h)
  | .vbool _, .null => isFalse (fun h => Val.noConfusion h)
  | .vbool _, .vint _ => isFalse (fun h => Val.noConfusion h)
  | .vbool _, .vstr _ => isFalse (fun h => Val.noConfusion h)
  | .vbool _, .vlist _ => isFalse (fun h => Val.noConfusion h)
  | .vlist _, .null => isFalse (fun h => Val.noConfusion h)
  | .vlist _, .vint _ => isFalse (fun h => Val.noConfusion h)
  | .vlist _, .vstr _ => isFalse (fun h => Val.noConfusion h)
  | .vlist _, .vbool _ => isFalse (fun h => Val.noConfusion h)

/-- Decidable equality on lists of values. -/
def Val.decEqList : (a b : List Val) → Decidable (a = b)
  | [], [] => isTrue rfl
  | [], _ :: _ => isFalse (fun h => List.noConfusion h)
  | _ :: _, [] => isFalse (fun h => List.noConfusion h)
  | a :: as, b :: bs =>
      match Val.decEq a b, Val.decEqList as bs with
      | isTrue h1, isTrue h2 => isTrue (h1 ▸ h2 ▸ rfl)
      | isFalse h1, _ => isFalse (fun h => h1 (List.cons.inj h).1)
      | _, isFalse h2 => isFalse (fun h => h2 (List.cons.inj h).2)

end

instance : DecidableEq Val := Val.decEq

/-- The model of a pandas `DataFrame` as used by the code: an ordered
association list of named columns.  The positional row index of pandas is
represented by list position. -/
abbrev Frame := List (String × List Val)

/-- Ordered column names of a frame (`df.columns`). -/
def colNames (df : Frame) : List String := df.map Prod.fst

/-- Column access by name (`df[name]`), first matching column. -/
def lookupCol (name : String) (df : Frame) : Option (List Val) :=
  List.lookup name df

-- =============================================
-- Rename._execute  (manipulation_set.py lines 93-95)
-- ---------------------------------------------

/-- `Rename._execute`: `df.rename(columns=self.columns)` relabels every
column through the mapping, leaving data and order untouched. -/
def renameExec (columns : List (String × String)) (df : Frame) : Frame :=
  df.map (fun c => ((List.lookup c.1 columns).getD c.1, c.2))

-- =============================================
-- Select._execute  (manipulation_set.py lines 116-119)
-- ---------------------------------------------

/-- `Select._execute`: computes `unneeded = set(existing) - set(columns)` and
drops those labels; kept columns stay in the frame order. -/
def selectExec (columns : List String) (df : Frame) : Frame :=
  let existing := colNames df
  let unneeded := existing.filter (fun c => !(columns.contains c))
  df.filter (fun colpair => !(unneeded.contains colpair.1))

-- =============================================
-- Flatten._execute  (manipulation_set.py lines 152-160)
-- ---------------------------------------------

/-- The `col_flat` list comprehension of `Flatten._execute`:
`[[i, x] for i, y in df[column].apply(list).iteritems() for x in y]`,
with `k` the running row index. -/
def colFlatAux (k : Nat) : List (List Val) → List (Nat × Val)
  | [] => []
  | ys :: rest => ys.map (fun x => (k, x)) ++ colFlatAux (k + 1) rest

/-- One replicated column of the index merge in `Flatten._execute`: row `k`
of the left frame is emitted once per `col_flat` entry carrying index `k`
(pandas `merge(left_index=True, right_index=True)`, left order outermost,
right order within a key). -/
def mergeRepAux (colFlat : List (Nat × Val)) : Nat → List Val → List Val
  | _, [] => []
  | k, v :: vs =>
      ((colFlat.filter (fun q => q.1 == k)).map (fun _ => v))
        ++ mergeRepAux colFlat (k + 1) vs

/-- The flattened column produced by the index merge: for each left row index
in order, the matching `col_flat` values in their order. -/
def mergeFlatAux (colFlat : List (Nat × Val)) : Nat → Nat → List Val
  | _, 0 => []
  | k, m + 1 =>
      ((colFlat.filter (fun q => q.1 == k)).map Prod.snd)
        ++ mergeFlatAux colFlat (k + 1) m

/-- `df[column].apply(list)` on a column of sequence cells; `none` when a
cell is not a sequence (where the Python call would fail). -/
def allLists (vs : List Val) : Option (List (List Val)) :=
  vs.mapM (fun v => match v with | .vlist l => some l | _ => none)

/-- `Flatten._execute`: builds `col_flat`, drops the flattened column, merges
on the row index (replicating the other columns per element) and resets the
index (positional in this model). -/
def flattenExec (column : String) (df : Frame) : Option Frame :=
  match lookupCol column df with
  | none => none
  | some vs =>
    match allLists vs with
    | none => none
    | some cells =>
      let colFlat := colFlatAux 0 cells
      let others := df.filter (fun c => c.1 != column)
      some (others.map (fun c => (c.1, mergeRepAux colFlat 0 c.2))
            ++ [(column, mergeFlatAux colFlat 0 cells.length)])

-- =============================================
-- GroupedSummary  (manipulation_set.py lines 205-243)
-- ---------------------------------------------

/-- An entry of `GroupedSummary.aggregations`:
`{summary_col_name, summary_type, target_col}`. -/
structure Agg where
  summary_col_name : String
  summary_type : String
  target_col : String

/-- A value of the `_aggregations` inner dict: either the name string passed
through to the frame library, or the `spread` lambda
`lambda x: max(x) - min(x)` from `GroupedSummary.lambda_summaries`. -/
inductive AggVal where
  | named (s : String) : AggVal
  | spreadLambda : AggVal

/-- Assignment `d[name] = v` on an insertion-ordered dict model. -/
def assocUpdate (entries : List (String × AggVal)) (name : String) (v : AggVal) :
    List (String × AggVal) :=
  if entries.any (fun e => e.1 == name) then
    entries.map (fun e => if e.1 == name then (e.1, v) else e)
  else entries ++ [(name, v)]

/-- Assignment `_aggregations[target][name] = v` on the
`defaultdict(dict)` model. -/
def aggInsert : List (String × List (String × AggVal)) → String → String → AggVal →
    List (String × List (String × AggVal))
  | [], t, nm, v => [(t, [(nm, v)])]
  | e :: rest, t, nm, v =>
      if e.1 == t then (e.1, assocUpdate e.2 nm v) :: rest
      else e :: aggInsert rest t nm v

/-- `GroupedSummary._merge_aggregations`: `spread` is replaced by the lambda
from `lambda_summaries`, every other summary type is stored by name. -/
def mergeAggregations (aggregations : List Agg) : List (String × List (String × AggVal)) :=
  aggregations.foldl
    (fun m a => aggInsert m a.target_col a.summary_col_name
      (if a.summary_type == "spread" then AggVal.spreadLambda else AggVal.named a.summary_type))
    []

/-- Integer contents of a column; `none` on non-integer cells (the only
dtype the modelled reducers are applied to). -/
def intsOf (vs : List Val) : Option (List Int) :=
  vs.mapM (fun v => match v with | .vint n => some n | _ => none)

/-- One reducer application of `df.groupby(...).agg(...)`.  The named
reducers follow the abstract Frame operation of spec section 3 restricted to
integer columns; `spreadLambda` is the source lambda `max(x) - min(x)`. -/
def evalAggVal : AggVal → List Val → Option Val
  | .named s, vs =>
      if s = "sum" then (intsOf vs).map (fun l => Val.vint l.sum)
      else if s = "count" then some (Val.vint vs.length)
      else if s = "min" then
        (intsOf vs).bind (fun l => match l with
          | [] => none
          | x :: xs => some (Val.vint (xs.foldl min x)))
      else if s = "max" then
        (intsOf vs).bind (fun l => match l with
          | [] => none
          | x :: xs => some (Val.vint (xs.foldl max x)))
      else none
  | .spreadLambda, vs =>
      (intsOf vs).bind (fun l => match l with
        | [] => none
        | x :: xs => some (Val.vint (xs.foldl max x - xs.foldl min x)))

/-- Row count of a frame. -/
def nrows (df : Frame) : Nat :=
  match df with
  | [] => 0
  | c :: _ => c.2.length

/-- Distinct group keys in first-appearance order. -/
def dedupFirst (l : List (List Val)) : List (List Val) :=
  l.foldl (fun acc k => if acc.contains k then acc else acc ++ [k]) []

/-- Model of `df.groupby(group_by).agg(aggs)`, the abstract group-by Frame
operation of spec section 3: rows are partitioned by the tuple of group-by
columns, each reducer is applied to its target column per group, and the
output lists the group-by columns first, then the named summary columns.
Groups appear in first-appearance order (pandas sorts keys; the two orders
agree on the inputs considered here). -/
def groupbyAgg (gb : List String) (aggs : List (String × List (String × AggVal)))
    (df : Frame) : Option Frame := do
  let n := nrows df
  let keys ← (List.range n).mapM
    (fun i => gb.mapM (fun g => (lookupCol g df).bind (fun vs => vs.get? i)))
  let groups := dedupFirst keys
  let gbCols := gb.enum.map
    (fun p => (p.2, groups.map (fun key => (key.get? p.1).getD Val.null)))
  let sumCols ← aggs.mapM (fun ta => do
    let tvals ← lookupCol ta.1 df
    ta.2.mapM (fun na => do
      let col ← groups.mapM (fun key =>
        evalAggVal na.2
          (((keys.enum.filter (fun q => q.2 == key)).map Prod.fst).filterMap
            (fun i => tvals.get? i)))
      pure (na.1, col)))
  pure (gbCols ++ sumCols.flatten)

/-- `GroupedSummary._execute`: `df.groupby(self.group_by).agg(self._aggregations)`. -/
def groupedSummaryExec (group_by : List String) (aggregations : List Agg)
    (df : Frame) : Option Frame :=
  groupbyAgg group_by (mergeAggregations aggregations) df

-- =============================================
-- ManipulationSet.__add__  (manipulation_set.py lines 272-279)
-- ---------------------------------------------

/-- The manipulation stage variants held by a `ManipulationSet`. -/
inductive Manip where
  | mutate (mutations : List (String × String)) : Manip
  | rename (columns : List (String × String)) : Manip
  | select (columns : List String) : Manip
  | remove (columns : List String) : Manip
  | flatten (column : String) : Manip
  | unpack (unpack_list : List (String × List String × String)) : Manip
  | groupedSummary (group_by : List String) (aggregations : List Agg) : Manip
  | dropNa : Manip

/-- The dynamically typed right operand of `ManipulationSet.__add__`: either
a `Manipulation` instance or some other Python object. -/
inductive AddOperand where
  | manip (m : Manip) : AddOperand
  | notManip (desc : String) : AddOperand

/-- `ManipulationSet.__add__`: raises `ConfigurationException` unless the
operand is a `Manipulation`, otherwise appends it to `self.manipulations`
and returns the (mutated) set, modelled as the updated list. -/
def msetAdd (s : List Manip) (other : AddOperand) : Except String (List Manip) :=
  match other with
  | .notManip _ =>
      .error "Only Manipulation instances can be added to ManipulationSet."
  | .manip m => .ok (s ++ [m])

-- =============================================
-- QueryNode  (query_node.py)
-- ---------------------------------------------

/-- A `QueryNode` tree: node name and owned children.  Frames and flags are
modelled separately, since `execute` is what writes them. -/
inductive QNode where
  | mk (qname : String) (children : List QNode) : QNode

/-- Node name accessor. -/
def QNode.qname : QNode → String
  | .mk n _ => n

/-- Children accessor. -/
def QNode.children : QNode → List QNode
  | .mk _ cs => cs

mutual

/-- Decidable equality on query nodes (nested list occurrence, by hand). -/
def QNode.decEq : (a b : QNode) → Decidable (a = b)
  | .mk n1 cs1, .mk n2 cs2 =>
      if h : n1 = n2 then
        match QNode.decEqList cs1 cs2 with
        | isTrue h2 => isTrue (h ▸ h2 ▸ rfl)
        | isFalse h2 => isFalse (fun he => h2 (QNode.mk.inj he).2
          )
      else isFalse (fun he => h (QNode.mk.inj he).1)

/-- Decidable equality on lists of query nodes. -/
def QNode.decEqList : (a b : List QNode) → Decidable (a = b)
  | [], [] => isTrue rfl
  | [], _ :: _ => isFalse (fun h => List.noConfusion h)
  | _ :: _, [] => isFalse (fun h => List.noConfusion h)
  | a :: as, b :: bs =>
      match QNode.decEq a b, QNode.decEqList as bs with
      | isTrue h1, isTrue h2 => isTrue (h1 ▸ h2 ▸ rfl)
      | isFalse h1, _ => isFalse (fun h => h1 (List.cons.inj h).1)
      | _, isFalse h2 => isFalse (fun h => h2 (List.cons.inj h).2)

end

instance : DecidableEq QNode := QNode.decEq

/-- `QueryNode.__iter__` (query_node.py lines 67-74): yields the node itself,
then its direct children — and nothing deeper. -/
def iterNodes (q : QNode) : List QNode := q :: q.children

/-- `QueryNode.creates_cycle` (lines 76-81): `self in child_node`, where
`__contains__` tests membership of `list(child_node)`, i.e. of
`iterNodes child_node`. -/
def createsCycle (self child_node : QNode) : Bool :=
  (iterNodes child_node).contains self

mutual

/-- The full subtree of a node: the node, its children, their children, and
so on.  This is the claim-side notion of descendant, stated from the spec
for comparison with the shallow `iterNodes`. -/
def subtree : QNode → List QNode
  | .mk n cs => QNode.mk n cs :: subtreeList cs

/-- The concatenated subtrees of a list of nodes. -/
def subtreeList : List QNode → List QNode
  | [] => []
  | c :: rest => subtree c ++ subtreeList rest

end

/-- The names marked `already_executed = True` by `QueryNode.execute`
(lines 153-166): `_execute` runs for exactly the nodes yielded by
`__iter__` on the root. -/
def executedNames (root : QNode) : List String :=
  (iterNodes root).map QNode.qname

/-- The `reverse_topological_ordering` list built by
`QueryNode._fold_children` (lines 113-124): iterate `self`, skip `self`,
insert each child at position 0 — the reverse of the iteration order. -/
def foldOrdering (root : QNode) : List QNode :=
  ((iterNodes root).filter (fun c => c != root)).reverse

/-- The sequence of `join_with_parent` calls emitted by `_fold_children`,
as node names. -/
def foldJoinTrace (root : QNode) : List String :=
  (foldOrdering root).map QNode.qname

/-- The root frame after `_fold_children`: each `join_with_parent` call
replaces the parent frame with `apply_join(parent_df, child_df)`.  The join
itself (`JoinContext.apply_join`) and the per-node frames are parameters:
`join` is keyed by the child node name, `dfs` gives each node's frame after
execution. -/
def foldChildrenDf (join : String → Frame → Frame → Frame) (dfs : String → Frame)
    (root : QNode) : Frame :=
  (foldOrdering root).foldl (fun acc c => join c.qname acc (dfs c.qname))
    (dfs root.qname)

-- =============================================
-- QueryTemplate  (query_template.py)
-- ---------------------------------------------

/-- The opening brace character, kept symbolic. -/
def obr : Char := Char.ofNat 123

/-- The closing brace character, kept symbolic. -/
def cbr : Char := Char.ofNat 125

/-- Finds the first (lazy) occurrence of the two-character closer `a b` in a
character list; returns the content before it and the remainder after it. -/
def findClose (a b : Char) : List Char → Option (List Char × List Char)
  | [] => none
  | [_] => none
  | x :: y :: rest =>
      if x = a ∧ y = b then some ([], rest)
      else
        match findClose a b (y :: rest) with
        | some (pre, post) => some (x :: pre, post)
        | none => none

/-- The token partition of `QueryTemplate.render` (line 55), mirroring
`re.split` with the capturing pattern of the three lazy alternatives: the
pieces are the non-matching segments and the matched tokens, interleaved
and in order.  At each position the alternatives are tried on the
two-character opener; a failed opener advances one character.  `fuel`
bounds the recursion; each step consumes at least one character, so
`length + 1` fuel always suffices. -/
def scanAux : Nat → List Char → List Char → List (List Char)
  | 0, acc, s => [acc.reverse ++ s]
  | _ + 1, acc, [] => [acc.reverse]
  | fuel + 1, acc, [c] =>
      if c = obr then [(c :: acc).reverse] else scanAux fuel (c :: acc) []
  | fuel + 1, acc, c :: c2 :: rest2 =>
      if c = obr then
        if c2 = obr then
          match findClose cbr cbr rest2 with
          | some (content, restAfter) =>
              acc.reverse :: (obr :: obr :: (content ++ [cbr, cbr]))
                :: scanAux fuel [] restAfter
          | none => scanAux fuel (c :: acc) (c2 :: rest2)
        else if c2 = '%' then
          match findClose '%' cbr rest2 with
          | some (content, restAfter) =>
              acc.reverse :: (obr :: '%' :: (content ++ ['%', cbr]))
                :: scanAux fuel [] restAfter
          | none => scanAux fuel (c :: acc) (c2 :: rest2)
        else if c2 = '#' then
          match findClose '#' cbr rest2 with
          | some (content, restAfter) =>
              acc.reverse :: (obr :: '#' :: (content ++ ['#', cbr]))
                :: scanAux fuel [] restAfter
          | none => scanAux fuel (c :: acc) (c2 :: rest2)
        else scanAux fuel (c :: acc) (c2 :: rest2)
      else scanAux fuel (c :: acc) (c2 :: rest2)

/-- The token list `re.split(r"(?s)({{.*?}}|{%.*?%}|{#.*?#})", query)`. -/
def splitTemplate (s : List Char) : List (List Char) :=
  scanAux (s.length + 1) [] s

/-- The single-alternative partition used by
`QueryTemplate.has_dependent_parameters` (line 93):
`re.split(r"(?s)({{.*?}})", query)`. -/
def scanDepAux : Nat → List Char → List Char → List (List Char)
  | 0, acc, s => [acc.reverse ++ s]
  | _ + 1, acc, [] => [acc.reverse]
  | fuel + 1, acc, [c] =>
      if c = obr then [(c :: acc).reverse] else scanDepAux fuel (c :: acc) []
  | fuel + 1, acc, c :: c2 :: rest2 =>
      if c = obr then
        if c2 = obr then
          match findClose cbr cbr rest2 with
          | some (content, restAfter) =>
              acc.reverse :: (obr :: obr :: (content ++ [cbr, cbr]))
                :: scanDepAux fuel [] restAfter
          | none => scanDepAux fuel (c :: acc) (c2 :: rest2)
        else scanDepAux fuel (c :: acc) (c2 :: rest2)
      else scanDepAux fuel (c :: acc) (c2 :: rest2)

/-- `QueryTemplate.has_dependent_parameters` (lines 85-98): split on the
dependent-token pattern alone and report whether any piece starts with two
opening braces. -/
def hasDependentParameters (query : List Char) : Bool :=
  (scanDepAux (query.length + 1) [] query).any
    (fun t => [obr, obr].isPrefixOf t)

/-- Whether the two-character sequence of two opening braces occurs anywhere
in the template. -/
def hasDD : List Char → Bool
  | [] => false
  | _ :: [] => false
  | a :: b :: rest => (a = obr && b = obr) || hasDD (b :: rest)

/-- Whether the two-character sequence of two closing braces occurs anywhere
in the list. -/
def hasCC : List Char → Bool
  | [] => false
  | _ :: [] => false
  | a :: b :: rest => (a = cbr && b = cbr) || hasCC (b :: rest)

/-- Whether the template contains a complete dependent token: an occurrence
of two opening braces later followed by two closing braces (the matching
condition of the lazy pattern).  Claim-side definition. -/
def containsCompleteDepToken : List Char → Bool
  | [] => false
  | c :: rest =>
      (c = obr &&
        (match rest with
         | c2 :: rest2 => c2 = obr && hasCC rest2
         | [] => false))
      || containsCompleteDepToken rest

/-- Render-time errors of the template engine, by kind (spec section 7). -/
inductive RenderErr where
  | dependentParameter (msg : String) : RenderErr
  | independentParameter (msg : String) : RenderErr
deriving DecidableEq

instance : DecidableEq (Except RenderErr String) := fun a b =>
  match a, b with
  | .ok x, .ok y =>
      if h : x = y then isTrue (h ▸ rfl)
      else isFalse (fun he => h (Except.ok.inj he))
  | .error x, .error y =>
      if h : x = y then isTrue (h ▸ rfl)
      else isFalse (fun he => h (Except.error.inj he))
  | .ok _, .error _ => isFalse (fun h => Except.noConfusion h)
  | .error _, .ok _ => isFalse (fun h => Except.noConfusion h)

/-- `token[2:-2].strip()`: the inner expression of a parameter token. -/
def innerOf (tok : List Char) : List Char :=
  (((tok.drop 2).take (tok.length - 4)).dropWhile Char.isWhitespace).reverse
    |>.dropWhile Char.isWhitespace |>.reverse

/-- Modelled from the spec: `TemplateParameter` parsing
(query/template/parameter.py is not part of the sources).  The parameter
syntax is `name | modifier [: type]`; the name is the part before the
first pipe, stripped. -/
def paramName (inner : List Char) : String :=
  String.mk (((inner.takeWhile (fun c => c ≠ '|')).dropWhile Char.isWhitespace).reverse
    |>.dropWhile Char.isWhitespace |>.reverse)

/-- Modelled from the spec: the value formatting of
`TemplateParameter.query_value` (parameter.py is not part of the sources).
`value_list` emits a comma-separated parenthesized list, scalars emit one
literal; the exact literal syntax is immaterial to the claims. -/
def formatScalar : Val → String
  | .null => "NULL"
  | .vint n => toString n
  | .vstr s => s
  | .vbool b => toString b
  | .vlist _ => ""

/-- Modelled from the spec: formatting of a resolved parameter value. -/
def formatParam (v : Val) : String :=
  match v with
  | .vlist l => "(" ++ String.intercalate ", " (l.map formatScalar) ++ ")"
  | _ => formatScalar v

/-- Modelled from the spec: `TemplateParameter.query_value` for an
independent parameter (parameter.py is not part of the sources): the value
is resolved from the caller-provided map; a missing name fails with
`IndependentParameterError`. -/
def indepQueryValue (params : List (String × Val)) (inner : List Char) :
    Except RenderErr String :=
  match List.lookup (paramName inner) params with
  | none => .error (.independentParameter
      ("No value given for independent parameter " ++ paramName inner ++ "."))
  | some v => .ok (formatParam v)

/-- Modelled from the spec: `TemplateParameter.query_value` for a dependent
parameter (parameter.py is not part of the sources): the value list is read
from the named column of the parent frame; a missing column fails with
`DependentParameterError`. -/
def depQueryValue (df : Frame) (inner : List Char) : Except RenderErr String :=
  match lookupCol (paramName inner) df with
  | none => .error (.dependentParameter
      ("No column named " ++ paramName inner ++ " in the given dataframe."))
  | some vs => .ok (formatParam (Val.vlist vs))

/-- The per-token loop of `QueryTemplate.render` (lines 54-83): dependent
tokens need a frame and resolve against it; comment tokens emit nothing;
independent tokens fail when no parameter values at all were given, and
otherwise resolve from the map; any other piece passes through. -/
def renderTokens (df : Option Frame) (params : List (String × Val)) :
    List (List Char) → Except RenderErr String
  | [] => .ok ""
  | tok :: rest =>
    if [obr, obr].isPrefixOf tok then
      match df with
      | none => .error (.dependentParameter
          "No dataframe was given from which to generate dependentparameter value(s).")
      | some f => do
        let s ← depQueryValue f (innerOf tok)
        let r ← renderTokens df params rest
        pure (s ++ r)
    else if [obr, '#'].isPrefixOf tok then renderTokens df params rest
    else if [obr, '%'].isPrefixOf tok then
      if params = [] then
        .error (.independentParameter
          "Independent parameters present in query and no independentparameter values given.")
      else do
        let s ← indepQueryValue params (innerOf tok)
        let r ← renderTokens df params rest
        pure (s ++ r)
    else do
      let r ← renderTokens df params rest
      pure (String.mk tok ++ r)

/-- `QueryTemplate.render`: split the query and process each piece. -/
def render (df : Option Frame) (params : List (String × Val))
    (query : List Char) : Except RenderErr String :=
  renderTokens df params (splitTemplate query)

-- =============================================
-- Helper lemmas
-- ---------------------------------------------

theorem qname_mk (n : String) (cs : List QNode) : (QNode.mk n cs).qname = n := rfl

theorem children_mk (n : String) (cs : List QNode) : (QNode.mk n cs).children = cs := rfl

theorem select_eq_filter (cols : List String) (df : Frame) :
    selectExec cols df = df.filter (fun c => cols.contains c.1) := by
  unfold selectExec
  refine List.filter_congr ?_
  intro c hc
  have hmem : c.1 ∈ colNames df := List.mem_map_of_mem Prod.fst hc
  by_cases h : c.1 ∈ cols <;> simp [h, hmem]

theorem mem_subtree_self (t : QNode) : t ∈ subtree t := by
  cases t with
  | mk n cs => rw [subtree]; exact List.mem_cons_self _ _

theorem mem_subtreeList_of_mem (x : QNode) :
    ∀ cs : List QNode, x ∈ cs → x ∈ subtreeList cs := by
  intro cs
  induction cs with
  | nil => intro h; cases h
  | cons c rest ih =>
    intro h
    rw [subtreeList]
    rcases List.mem_cons.mp h with h1 | h2
    · exact List.mem_append_left _ (h1 ▸ mem_subtree_self x)
    · exact List.mem_append_right _ (ih h2)

theorem mem_subtree_of_child (x : QNode) (t : QNode) (h : x ∈ t.children) :
    x ∈ subtree t := by
  cases t with
  | mk n cs =>
    rw [subtree]
    exact List.mem_cons_of_mem _ (mem_subtreeList_of_mem x cs h)

theorem child_ne_root (n : String) (cs : List QNode) (c : QNode) (h : c ∈ cs) :
    c ≠ QNode.mk n cs := by
  intro heq
  have hlt : sizeOf c < sizeOf cs := List.sizeOf_lt_of_mem h
  have : sizeOf c = sizeOf (QNode.mk n cs) := by rw [heq]
  simp only [QNode.mk.sizeOf_spec] at this
  omega

theorem rename_roundtrip_aux (a b : String) :
    ∀ df : Frame, b ∉ colNames df →
      renameExec [(b, a)] (renameExec [(a, b)] df) = df := by
  intro df
  induction df with
  | nil => intro _; rfl
  | cons c rest ih =>
    intro hb
    obtain ⟨c1, c2⟩ := c
    have hb1 : b ≠ c1 := fun h =>
      hb (h ▸ List.mem_map_of_mem Prod.fst (List.mem_cons_self _ _))
    have hb2 : b ∉ colNames rest := fun h => hb (List.mem_cons_of_mem _ h)
    have htail := ih hb2
    unfold renameExec at htail ⊢
    simp only [List.map_cons, List.map_map] at htail ⊢
    refine List.cons_eq_cons.mpr ⟨?_, htail⟩
    by_cases hca : c1 = a
    · subst hca
      simp [List.lookup]
    · have ha' : (c1 == a) = false := beq_eq_false_iff_ne.mpr hca
      have hcb : (c1 == b) = false := beq_eq_false_iff_ne.mpr (fun h => hb1 h.symm)
      simp [List.lookup, ha', hcb]

-- Lemmas about the two-opening-brace occurrence predicate.

theorem hasDD_cons (c : Char) (l : List Char) (h : hasDD l = true) :
    hasDD (c :: l) = true := by
  cases l with
  | nil => simp [hasDD] at h
  | cons b rest => rw [hasDD, h, Bool.or_true]

theorem hasDD_append_right (l s : List Char) (h : hasDD s = true) :
    hasDD (l ++ s) = true := by
  induction l with
  | nil => simpa
  | cons c rest ih => rw [List.cons_append]; exact hasDD_cons c _ ih

theorem hasDD_append_left : ∀ l s : List Char, hasDD l = true → hasDD (l ++ s) = true := by
  intro l s
  induction l with
  | nil => intro h; simp [hasDD] at h
  | cons a rest ih =>
    intro h
    cases rest with
    | nil => simp [hasDD] at h
    | cons b rest2 =>
      rw [hasDD] at h
      rw [List.cons_append, List.cons_append, hasDD]
      rcases Bool.or_eq_true_iff.mp h with h1 | h2
      · rw [h1, Bool.true_or]
      · rw [← List.cons_append, ih h2, Bool.or_true]

theorem hasDD_of_startsDD (l : List Char) (h : [obr, obr].isPrefixOf l = true) :
    hasDD l = true := by
  cases l with
  | nil => simp [List.isPrefixOf] at h
  | cons a rest =>
    cases rest with
    | nil => simp [List.isPrefixOf] at h
    | cons b rest2 =>
      simp only [List.isPrefixOf, Bool.and_eq_true, beq_iff_eq] at h
      obtain ⟨h1, h2, -⟩ := h
      subst h1
      subst h2
      rw [hasDD]
      simp

theorem not_dd_left (l s : List Char) (h : hasDD (l ++ s) = false) :
    hasDD l = false := by
  cases hd : hasDD l with
  | false => rfl
  | true => rw [hasDD_append_left l s hd] at h; cases h

theorem not_dd_right (l s : List Char) (h : hasDD (l ++ s) = false) :
    hasDD s = false := by
  cases hd : hasDD s with
  | false => rfl
  | true => rw [hasDD_append_right l s hd] at h; cases h

theorem no_prefix_of_not_dd (l : List Char) (h : hasDD l = false) :
    [obr, obr].isPrefixOf l = false := by
  cases hp : [obr, obr].isPrefixOf l with
  | false => rfl
  | true => rw [hasDD_of_startsDD l hp] at h; cases h

theorem findClose_eq (a b : Char) :
    ∀ s pre post : List Char, findClose a b s = some (pre, post) →
      s = pre ++ a :: b :: post := by
  intro s
  induction s with
  | nil => intro pre post h; simp [findClose] at h
  | cons x rest ih =>
    intro pre post h
    cases rest with
    | nil => simp [findClose] at h
    | cons y rest2 =>
      rw [findClose] at h
      by_cases hc : x = a ∧ y = b
      · rw [if_pos hc] at h
        have h12 := Option.some.inj h
        have h1 : ([] : List Char) = pre := congrArg Prod.fst h12
        have h2 : rest2 = post := congrArg Prod.snd h12
        subst h1
        subst h2
        rw [hc.1, hc.2]
        rfl
      · rw [if_neg hc] at h
        cases hf : findClose a b (y :: rest2) with
        | none => rw [hf] at h; cases h
        | some p =>
          obtain ⟨pre2, post2⟩ := p
          rw [hf] at h
          have h12 := Option.some.inj h
          have h1 : x :: pre2 = pre := congrArg Prod.fst h12
          have h2 : post2 = post := congrArg Prod.snd h12
          subst h1
          subst h2
          rw [List.cons_append]
          exact congrArg (x :: ·) (ih pre2 post2 hf)

theorem not_dd_reduce (acc : List Char) (c : Char) (rest : List Char)
    (h : hasDD (acc.reverse ++ c :: rest) = false) :
    hasDD ((c :: acc).reverse ++ rest) = false := by
  rw [List.reverse_cons, List.append_assoc, List.singleton_append]
  exact h

theorem not_dd_restAfter (acc : List Char) (c c2 m1 m2 : Char)
    (content restAfter rest2 : List Char)
    (hsplit : rest2 = content ++ m1 :: m2 :: restAfter)
    (h : hasDD (acc.reverse ++ c :: c2 :: rest2) = false) :
    hasDD restAfter = false := by
  cases hd : hasDD restAfter with
  | false => rfl
  | true =>
    have h1 : hasDD rest2 = true := by
      rw [hsplit]
      exact hasDD_append_right _ _ (hasDD_cons _ _ (hasDD_cons _ _ hd))
    rw [hasDD_append_right _ _ (hasDD_cons _ _ (hasDD_cons _ _ h1))] at h
    cases h

theorem no_prefix_emitted (l s : List Char) (h : hasDD (l ++ s) = false) :
    [obr, obr].isPrefixOf l = false :=
  no_prefix_of_not_dd l (not_dd_left l s h)

theorem pct_not_dep (content : List Char) :
    [obr, obr].isPrefixOf (obr :: '%' :: content) = false := by
  simp [List.isPrefixOf, show (obr == '%') = false by decide]

theorem hsh_not_dep (content : List Char) :
    [obr, obr].isPrefixOf (obr :: '#' :: content) = false := by
  simp [List.isPrefixOf, show (obr == '#') = false by decide]

theorem scanAux_no_dep :
    ∀ (fuel : Nat) (acc s : List Char), hasDD (acc.reverse ++ s) = false →
      ∀ t ∈ scanAux fuel acc s, [obr, obr].isPrefixOf t = false := by
  intro fuel
  induction fuel with
  | zero =>
    intro acc s h t ht
    rw [scanAux] at ht
    rcases List.mem_singleton.mp ht with rfl
    exact no_prefix_of_not_dd _ h
  | succ fuel ih =>
    intro acc s h t ht
    cases s with
    | nil =>
      rw [scanAux] at ht
      rw [List.append_nil] at h
      rcases List.mem_singleton.mp ht with rfl
      exact no_prefix_of_not_dd _ h
    | cons c rest =>
      cases rest with
      | nil =>
        rw [scanAux] at ht
        by_cases hc : c = obr
        · rw [if_pos hc] at ht
          rcases List.mem_singleton.mp ht with rfl
          rw [List.reverse_cons]
          exact no_prefix_of_not_dd _ h
        · rw [if_neg hc] at ht
          exact ih (c :: acc) [] (not_dd_reduce acc c [] h) t ht
      | cons c2 rest2 =>
        rw [scanAux] at ht
        by_cases hc : c = obr
        · rw [if_pos hc] at ht
          by_cases hc2 : c2 = obr
          · exfalso
            have hdd : hasDD (c :: c2 :: rest2) = true := by
              rw [hasDD]
              simp [hc, hc2]
            rw [hasDD_append_right _ _ hdd] at h
            cases h
          · rw [if_neg hc2] at ht
            by_cases hc3 : c2 = '%'
            · rw [if_pos hc3] at ht
              cases hf : findClose '%' cbr rest2 with
              | some p =>
                obtain ⟨content, restAfter⟩ := p
                simp only [hf] at ht
                rcases List.mem_cons.mp ht with rfl | ht2
                · exact no_prefix_emitted _ _ h
                · rcases List.mem_cons.mp ht2 with rfl | ht3
                  · exact pct_not_dep _
                  · refine ih [] restAfter ?_ t ht3
                    rw [List.reverse_nil, List.nil_append]
                    exact not_dd_restAfter acc c c2 '%' cbr content restAfter rest2
                      (findClose_eq _ _ _ _ _ hf) h
              | none =>
                simp only [hf] at ht
                exact ih (c :: acc) (c2 :: rest2) (not_dd_reduce acc c _ h) t ht
            · rw [if_neg hc3] at ht
              by_cases hc4 : c2 = '#'
              · rw [if_pos hc4] at ht
                cases hf : findClose '#' cbr rest2 with
                | some p =>
                  obtain ⟨content, restAfter⟩ := p
                  simp only [hf] at ht
                  rcases List.mem_cons.mp ht with rfl | ht2
                  · exact no_prefix_emitted _ _ h
                  · rcases List.mem_cons.mp ht2 with rfl | ht3
                    · exact hsh_not_dep _
                    · refine ih [] restAfter ?_ t ht3
                      rw [List.reverse_nil, List.nil_append]
                      exact not_dd_restAfter acc c c2 '#' cbr content restAfter rest2
                        (findClose_eq _ _ _ _ _ hf) h
                | none =>
                  simp only [hf] at ht
                  exact ih (c :: acc) (c2 :: rest2) (not_dd_reduce acc c _ h) t ht
              · rw [if_neg hc4] at ht
                exact ih (c :: acc) (c2 :: rest2) (not_dd_reduce acc c _ h) t ht
        · rw [if_neg hc] at ht
          exact ih (c :: acc) (c2 :: rest2) (not_dd_reduce acc c _ h) t ht

theorem scanDepAux_no_dep :
    ∀ (fuel : Nat) (acc s : List Char), hasDD (acc.reverse ++ s) = false →
      ∀ t ∈ scanDepAux fuel acc s, [obr, obr].isPrefixOf t = false := by
  intro fuel
  induction fuel with
  | zero =>
    intro acc s h t ht
    rw [scanDepAux] at ht
    rcases List.mem_singleton.mp ht with rfl
    exact no_prefix_of_not_dd _ h
  | succ fuel ih =>
    intro acc s h t ht
    cases s with
    | nil =>
      rw [scanDepAux] at ht
      rw [List.append_nil] at h
      rcases List.mem_singleton.mp ht with rfl
      exact no_prefix_of_not_dd _ h
    | cons c rest =>
      cases rest with
      | nil =>
        rw [scanDepAux] at ht
        by_cases hc : c = obr
        · rw [if_pos hc] at ht
          rcases List.mem_singleton.mp ht with rfl
          rw [List.reverse_cons]
          exact no_prefix_of_not_dd _ h
        · rw [if_neg hc] at ht
          exact ih (c :: acc) [] (not_dd_reduce acc c [] h) t ht
      | cons c2 rest2 =>
        rw [scanDepAux] at ht
        by_cases hc : c = obr
        · rw [if_pos hc] at ht
          by_cases hc2 : c2 = obr
          · exfalso
            have hdd : hasDD (c :: c2 :: rest2) = true := by
              rw [hasDD]
              simp [hc, hc2]
            rw [hasDD_append_right _ _ hdd] at h
            cases h
          · rw [if_neg hc2] at ht
            exact ih (c :: acc) (c2 :: rest2) (not_dd_reduce acc c _ h) t ht
        · rw [if_neg hc] at ht
          exact ih (c :: acc) (c2 :: rest2) (not_dd_reduce acc c _ h) t ht

theorem prefix2 (x y a b : Char) (r : List Char)
    (h : [x, y].isPrefixOf (a :: b :: r) = true) : a = x ∧ b = y := by
  simp only [List.isPrefixOf, Bool.and_eq_true, beq_iff_eq] at h
  exact ⟨h.1.symm, h.2.1.symm⟩

theorem prefix2_excl (y z : Char) (t : List Char) (hyz : y ≠ z)
    (h1 : [obr, y].isPrefixOf t = true) (h2 : [obr, z].isPrefixOf t = true) :
    False := by
  cases t with
  | nil => simp [List.isPrefixOf] at h1
  | cons a rest =>
    cases rest with
    | nil => simp [List.isPrefixOf] at h1
    | cons b r2 =>
      obtain ⟨-, hb1⟩ := prefix2 _ _ _ _ _ h1
      obtain ⟨-, hb2⟩ := prefix2 _ _ _ _ _ h2
      exact hyz (hb1.symm.trans hb2)

theorem renderTokens_df_irrelevant :
    ∀ L : List (List Char), (∀ t ∈ L, [obr, obr].isPrefixOf t = false) →
      ∀ (df₁ df₂ : Option Frame) (params : List (String × Val)),
        renderTokens df₁ params L = renderTokens df₂ params L := by
  intro L
  induction L with
  | nil => intro _ df₁ df₂ params; rfl
  | cons tok rest ih =>
    intro h df₁ df₂ params
    have htok := h tok (List.mem_cons_self _ _)
    have hrest : ∀ t ∈ rest, [obr, obr].isPrefixOf t = false :=
      fun t ht => h t (List.mem_cons_of_mem _ ht)
    have hr := ih hrest df₁ df₂ params
    simp only [renderTokens, htok, hr, Bool.false_eq_true, if_false]

theorem renderTokens_missing_indep :
    ∀ (L : List (List Char)) (params : List (String × Val)) (df : Option Frame),
      (∃ tok ∈ L, [obr, '%'].isPrefixOf tok = true ∧
        List.lookup (paramName (innerOf tok)) params = none) →
      ∃ e, renderTokens df params L = .error e ∧
        ((∀ t ∈ L, [obr, obr].isPrefixOf t = false) →
          ∃ m, e = RenderErr.independentParameter m) := by
  intro L
  induction L with
  | nil =>
    rintro params df ⟨tok, ht, -⟩
    cases ht
  | cons tok rest ih =>
    rintro params df ⟨tk, htk, hp, hl⟩
    by_cases hd : [obr, obr].isPrefixOf tok = true
    · have hw : ∃ t ∈ rest, [obr, '%'].isPrefixOf t = true ∧
          List.lookup (paramName (innerOf t)) params = none := by
        rcases List.mem_cons.mp htk with rfl | hmem
        · exact (prefix2_excl obr '%' tk (by decide) hd hp).elim
        · exact ⟨tk, hmem, hp, hl⟩
      have hvac : ¬ ∀ t ∈ tok :: rest, [obr, obr].isPrefixOf t = false := by
        intro hall
        rw [hall tok (List.mem_cons_self _ _)] at hd
        cases hd
      cases df with
      | none =>
        refine ⟨.dependentParameter
          "No dataframe was given from which to generate dependentparameter value(s).",
          ?_, fun hall => absurd hall hvac⟩
        simp [renderTokens, hd]
      | some f =>
        cases hq : depQueryValue f (innerOf tok) with
        | error e =>
          refine ⟨e, ?_, fun hall => absurd hall hvac⟩
          simp [renderTokens, hd, hq]
          rfl
        | ok sval =>
          obtain ⟨e, he, -⟩ := ih params (some f) hw
          refine ⟨e, ?_, fun hall => absurd hall hvac⟩
          simp [renderTokens, hd, hq, he]
          rfl
    · have hd' : [obr, obr].isPrefixOf tok = false := Bool.eq_false_iff.mpr hd
      by_cases hh : [obr, '#'].isPrefixOf tok = true
      · have hw : ∃ t ∈ rest, [obr, '%'].isPrefixOf t = true ∧
            List.lookup (paramName (innerOf t)) params = none := by
          rcases List.mem_cons.mp htk with rfl | hmem
          · exact (prefix2_excl '#' '%' tk (by decide) hh hp).elim
          · exact ⟨tk, hmem, hp, hl⟩
        obtain ⟨e, he, himp⟩ := ih params df hw
        refine ⟨e, ?_, fun hall => himp (fun t ht => hall t (List.mem_cons_of_mem _ ht))⟩
        simp [renderTokens, hd', hh, he]
      · have hh' : [obr, '#'].isPrefixOf tok = false := Bool.eq_false_iff.mpr hh
        by_cases hpct : [obr, '%'].isPrefixOf tok = true
        · by_cases hparams : params = []
          · refine ⟨.independentParameter
              "Independent parameters present in query and no independentparameter values given.",
              ?_, fun _ => ⟨_, rfl⟩⟩
            simp [renderTokens, hd', hh', hpct, hparams]
          · cases hlk : List.lookup (paramName (innerOf tok)) params with
            | none =>
              refine ⟨.independentParameter
                ("No value given for independent parameter " ++ paramName (innerOf tok) ++ "."),
                ?_, fun _ => ⟨_, rfl⟩⟩
              simp [renderTokens, hd', hh', hpct, hparams, indepQueryValue, hlk]
              rfl
            | some v =>
              have hw : ∃ t ∈ rest, [obr, '%'].isPrefixOf t = true ∧
                  List.lookup (paramName (innerOf t)) params = none := by
                rcases List.mem_cons.mp htk with rfl | hmem
                · rw [hl] at hlk
                  cases hlk
                · exact ⟨tk, hmem, hp, hl⟩
              obtain ⟨e, he, himp⟩ := ih params df hw
              refine ⟨e, ?_,
                fun hall => himp (fun t ht => hall t (List.mem_cons_of_mem _ ht))⟩
              simp [renderTokens, hd', hh', hpct, hparams, indepQueryValue, hlk, he]
              rfl
        · have hpct' : [obr, '%'].isPrefixOf tok = false := Bool.eq_false_iff.mpr hpct
          have hw : ∃ t ∈ rest, [obr, '%'].isPrefixOf t = true ∧
              List.lookup (paramName (innerOf t)) params = none := by
            rcases List.mem_cons.mp htk with rfl | hmem
            · rw [hp] at hpct'
              cases hpct'
            · exact ⟨tk, hmem, hp, hl⟩
          obtain ⟨e, he, himp⟩ := ih params df hw
          refine ⟨e, ?_,
            fun hall => himp (fun t ht => hall t (List.mem_cons_of_mem _ ht))⟩
          simp [renderTokens, hd', hh', hpct', he]

theorem foldOrdering_eq (n : String) (cs : List QNode) :
    foldOrdering (QNode.mk n cs) = cs.reverse := by
  unfold foldOrdering iterNodes
  have hroot : ((QNode.mk n cs != QNode.mk n cs) = true) = False := by simp
  rw [List.filter_cons]
  simp only [hroot, if_false]
  congr 1
  refine List.filter_eq_self.mpr ?_
  intro c hc
  simpa using child_ne_root n cs c hc

-- Lemmas about the flatten construction.

theorem colFlatAux_filter (cells : List (List Val)) :
    ∀ k i : Nat, (colFlatAux k cells).filter (fun q => q.1 == i)
      = if i < k then []
        else ((cells.get? (i - k)).getD []).map (fun x => (i, x)) := by
  induction cells with
  | nil => intro k i; simp [colFlatAux]
  | cons ys rest ih =>
    intro k i
    rw [colFlatAux, List.filter_append]
    by_cases hki : k = i
    · subst hki
      have h1 : (ys.map (fun x => (k, x))).filter (fun q => q.1 == k)
          = ys.map (fun x => (k, x)) := by
        refine List.filter_eq_self.mpr ?_
        intro a ha
        obtain ⟨x, -, rfl⟩ := List.mem_map.mp ha
        simp
      rw [h1, ih (k + 1) k, if_pos (Nat.lt_succ_self k)]
      simp [Nat.sub_self]
    · have h1 : (ys.map (fun x => (k, x))).filter (fun q => q.1 == i) = [] := by
        refine List.filter_eq_nil_iff.mpr ?_
        intro a ha
        obtain ⟨x, -, rfl⟩ := List.mem_map.mp ha
        simp [hki]
      rw [h1, List.nil_append, ih (k + 1) i]
      by_cases hik : i < k
      · rw [if_pos (by omega), if_pos hik]
      · rw [if_neg (by omega), if_neg hik]
        have hik2 : i - k = (i - (k + 1)) + 1 := by omega
        rw [hik2]
        rfl

theorem mergeRepAux_spec (cells : List (List Val)) :
    ∀ (vs : List Val) (k : Nat),
      mergeRepAux (colFlatAux 0 cells) k vs
        = (List.zipWith (fun ys v => List.replicate ys.length v)
            (cells.drop k) vs).flatten := by
  intro vs
  induction vs with
  | nil => intro k; simp [mergeRepAux]
  | cons v vs ih =>
    intro k
    rw [mergeRepAux, colFlatAux_filter cells 0 k, if_neg (Nat.not_lt_zero k),
      Nat.sub_zero]
    cases hc : cells.get? k with
    | none =>
      have hlen : cells.length ≤ k := List.get?_eq_none.mp hc
      rw [List.drop_eq_nil_iff.mpr hlen, ih (k + 1),
        List.drop_eq_nil_iff.mpr (Nat.le_succ_of_le hlen)]
      simp
    | some ys =>
      have hklen : k < cells.length := by
        by_contra hk
        rw [List.get?_eq_none.mpr (Nat.le_of_not_lt hk)] at hc
        cases hc
      rw [List.drop_eq_getElem_cons hklen, ih (k + 1)]
      have hys : cells[k] = ys := by
        have := List.get?_eq_get hklen
        rw [hc] at this
        exact (Option.some.inj this).symm
      rw [hys, List.zipWith_cons_cons, List.flatten_cons]
      refine congrArg (· ++ _) ?_
      simp only [Option.getD_some, List.map_map]
      exact List.map_const' ys v

theorem mergeFlatAux_spec (cells : List (List Val)) :
    ∀ m k : Nat, m = cells.length - k →
      mergeFlatAux (colFlatAux 0 cells) k m = (cells.drop k).flatten := by
  intro m
  induction m with
  | zero =>
    intro k hk
    rw [mergeFlatAux, List.drop_eq_nil_iff.mpr (by omega)]
    rfl
  | succ m ih =>
    intro k hk
    have hklen : k < cells.length := by omega
    rw [mergeFlatAux, colFlatAux_filter cells 0 k, if_neg (Nat.not_lt_zero k),
      Nat.sub_zero, List.get?_eq_get hklen, ih (k + 1) (by omega)]
    simp only [Option.getD_some, List.map_map]
    rw [List.drop_eq_getElem_cons hklen, List.flatten_cons]
    refine congrArg (· ++ _) ?_
    exact List.map_id' _


theorem allLists_map (cells : List (List Val)) :
    allLists (cells.map Val.vlist) = some cells := by
  induction cells with
  | nil => rfl
  | cons ys rest ih =>
    rw [List.map_cons]
    unfold allLists at ih ⊢
    rw [List.mapM_cons, ih]
    rfl

-- =============================================
-- Claim theorems
-- ---------------------------------------------

/-- Claim C10: adding a non-`Manipulation` object to a `ManipulationSet`
raises `ConfigurationException`; adding a `Manipulation` returns the set
with the operand appended after all previously held manipulations, which are
left unchanged and in order (the in-place mutation of the Python object is
modelled as the updated manipulation list). -/
theorem manipulation_set_add (s : List Manip) (d : String) (m : Manip) :
    msetAdd s (.notManip d) =
      .error "Only Manipulation instances can be added to ManipulationSet." ∧
    msetAdd s (.manip m) = .ok (s ++ [m]) :=
  ⟨rfl, rfl⟩

/-- Claim C8: on the frame `k=[a,a,b,b], v=[1,3,10,20]`, the pipeline
`group_by(k) >> summarize(s=sum(v), sp=spread(v))` produces the rows
`(a, 4, 2)` and `(b, 30, 10)`, with the group-by column first and then the
named summary columns, `spread` being `max(x) - min(x)`. -/
theorem grouped_summary_s4 :
    groupedSummaryExec ["k"] [⟨"s", "sum", "v"⟩, ⟨"sp", "spread", "v"⟩]
      [("k", [Val.vstr "a", Val.vstr "a", Val.vstr "b", Val.vstr "b"]),
       ("v", [Val.vint 1, Val.vint 3, Val.vint 10, Val.vint 20])]
    = some [("k", [Val.vstr "a", Val.vstr "b"]),
            ("s", [Val.vint 4, Val.vint 30]),
            ("sp", [Val.vint 2, Val.vint 10])] := by
  decide

/-- Claim C6 counterexample: on a frame with columns `a, b`, selecting
`[b, a]` yields the columns in frame order `a, b`, not in the listed
order `b, a`. -/
theorem select_order_counterexample :
    colNames (selectExec ["b", "a"] [("a", [Val.vint 1]), ("b", [Val.vint 2])])
      = ["a", "b"] ∧
    colNames (selectExec ["b", "a"] [("a", [Val.vint 1]), ("b", [Val.vint 2])])
      ≠ ["b", "a"] := by
  decide

/-- Claim C6 (amended): for every frame and list of column names all present
in the frame, `Select` produces a frame whose columns are exactly the listed
columns, appearing in the order in which they appear in the input frame. -/
theorem select_retains_listed_columns (df : Frame) (cols : List String)
    (h : ∀ c ∈ cols, c ∈ colNames df) :
    colNames (selectExec cols df) = (colNames df).filter (fun n => cols.contains n) ∧
    ∀ n, n ∈ colNames (selectExec cols df) ↔ n ∈ cols := by
  have he : colNames (selectExec cols df)
      = (colNames df).filter (fun n => cols.contains n) := by
    rw [select_eq_filter]
    unfold colNames
    rw [List.filter_map]
    rfl
  refine ⟨he, ?_⟩
  intro n
  rw [he, List.mem_filter]
  constructor
  · intro ⟨_, hc⟩
    simpa using hc
  · intro hn
    exact ⟨h n hn, by simpa using hn⟩

/-- Claim C6 witness: the amended statement evaluated on the two-column
frame with the reversed selection list. -/
theorem select_retains_listed_columns_witness :
    colNames (selectExec ["b", "a"] [("a", [Val.vint 1]), ("b", [Val.vint 2])])
      = ["a", "b"] ∧
    ("a" ∈ colNames (selectExec ["b", "a"] [("a", [Val.vint 1]), ("b", [Val.vint 2])])
      ↔ "a" ∈ ["b", "a"]) :=
  ⟨((select_retains_listed_columns
      [("a", [Val.vint 1]), ("b", [Val.vint 2])] ["b", "a"] (by decide)).1).trans
      (by decide),
   (select_retains_listed_columns
      [("a", [Val.vint 1]), ("b", [Val.vint 2])] ["b", "a"] (by decide)).2 "a"⟩

/-- Claim C9 counterexample: on the frame with columns `a, b`, applying
`Rename({a: b})` and then `Rename({b: a})` yields a frame whose columns are
both labelled `a`, which differs from the input. -/
theorem rename_roundtrip_counterexample :
    renameExec [("b", "a")] (renameExec [("a", "b")]
        [("a", [Val.vint 1]), ("b", [Val.vint 2])])
      ≠ [("a", [Val.vint 1]), ("b", [Val.vint 2])] := by
  decide

/-- Claim C9 (amended): for every frame containing column `a` and not
containing column `b`, `Rename({a:b})` followed by `Rename({b:a})` yields a
frame equal to the input; and for every frame and column list, `Select(cols)`
is idempotent. -/
theorem rename_roundtrip_select_idempotent :
    (∀ (df : Frame) (a b : String), a ∈ colNames df → b ∉ colNames df →
      renameExec [(b, a)] (renameExec [(a, b)] df) = df) ∧
    (∀ (df : Frame) (cols : List String),
      selectExec cols (selectExec cols df) = selectExec cols df) := by
  constructor
  · intro df a b _ hb
    exact rename_roundtrip_aux a b df hb
  · intro df cols
    simp only [select_eq_filter, List.filter_filter]
    exact List.filter_congr (fun c _ => by simp)

/-- Claim C9 witness: the amended round-trip and idempotence evaluated on a
one-column frame. -/
theorem rename_roundtrip_select_idempotent_witness :
    renameExec [("b", "a")] (renameExec [("a", "b")] [("a", [Val.vint 1])])
      = [("a", [Val.vint 1])] ∧
    selectExec ["a"] (selectExec ["a"] [("a", [Val.vint 1])])
      = selectExec ["a"] [("a", [Val.vint 1])] :=
  ⟨rename_roundtrip_select_idempotent.1 [("a", [Val.vint 1])] "a" "b"
      (by decide) (by decide),
   rename_roundtrip_select_idempotent.2 [("a", [Val.vint 1])] ["a"]⟩

/-- Claim C1: in the three-node chain root → c → g, the grandchild `g` is a
node of the graph but is not among the nodes marked executed by
`QueryNode.execute` — `__iter__` yields only the node and its direct
children, so grandchildren are never executed nor folded. -/
theorem execute_misses_grandchild :
    "g" ∈ (subtree (QNode.mk "root" [QNode.mk "c" [QNode.mk "g" []]])).map QNode.qname ∧
    "g" ∉ executedNames (QNode.mk "root" [QNode.mk "c" [QNode.mk "g" []]]) := by
  constructor
  · simp only [subtree, subtreeList]
    decide
  · decide

/-- Claim C2 counterexample: with `c` the parent of direct child `n`, the
node `n` lies in the subtree rooted at `c`, yet `creates_cycle` invoked for
attaching `n` as a child of `c` returns `False`. -/
theorem creates_cycle_counterexample :
    (subtree (QNode.mk "c" [QNode.mk "n" []])).contains (QNode.mk "n" []) = true ∧
    createsCycle (QNode.mk "c" [QNode.mk "n" []]) (QNode.mk "n" []) = false := by
  constructor
  · simp only [subtree, subtreeList]
    decide
  · decide

/-- Claim C2 (amended): `creates_cycle(c, n)` — the guard consulted before
attaching `n` as a child of `c` — returns `True` exactly when `c` is `n`
itself or a direct child of `n`; whenever it returns `True`, `c` really lies
in the subtree of `n` (so every detected attachment is a genuine cycle), but
descendants deeper than one level are not detected. -/
theorem creates_cycle_shallow (c n : QNode) :
    (createsCycle c n = true ↔ (c = n ∨ c ∈ n.children)) ∧
    (createsCycle c n = true → (subtree n).contains c = true) := by
  have hiff : createsCycle c n = true ↔ (c = n ∨ c ∈ n.children) := by
    unfold createsCycle iterNodes
    simp
  refine ⟨hiff, ?_⟩
  intro h
  rcases hiff.mp h with h1 | h2
  · subst h1
    simpa using mem_subtree_self c
  · simpa using mem_subtree_of_child c n h2

/-- Claim C2 witness: `creates_cycle` does flag attaching a node as a child
of itself. -/
theorem creates_cycle_shallow_witness :
    createsCycle (QNode.mk "a" []) (QNode.mk "a" []) = true :=
  (creates_cycle_shallow (QNode.mk "a" []) (QNode.mk "a" [])).1.mpr (Or.inl rfl)

/-- Claim C3 counterexample: with children declared in the order `c1, c2`,
the fold emits join calls in the order `c2, c1` — the reverse of the
declared sibling order the claim states. -/
theorem fold_order_counterexample :
    foldJoinTrace (QNode.mk "p" [QNode.mk "c1" [], QNode.mk "c2" []])
      = ["c2", "c1"] ∧
    foldJoinTrace (QNode.mk "p" [QNode.mk "c1" [], QNode.mk "c2" []])
      ≠ ["c1", "c2"] := by
  decide

/-- Claim C4 counterexample: the template holding the dependent token
followed by the independent token with name `b`, rendered with no frame and
the empty parameter map (which has no entry for `b`), fails with
`DependentParameterError`, not `IndependentParameterError` — the dependent
token fails first. -/
theorem render_missing_independent_counterexample :
    render none []
        ([obr, obr, 'a', cbr, cbr] ++ [obr, '%'] ++
          [' ', 'b', '|', 'v', 'a', 'l', 'u', 'e', ':', 'i', 'n', 't', ' '] ++
          ['%', cbr])
      = .error (.dependentParameter
          "No dataframe was given from which to generate dependentparameter value(s).") := by
  decide

/-- Claim C4 (amended): whenever the template's token list holds an
independent-parameter token whose name is missing from the caller-supplied
map (empty or not), `render` fails; and whenever no piece of the template
is a dependent token, the failure is an `IndependentParameterError`.  (A
dependent token rendered with no frame fails first, with
`DependentParameterError`.) -/
theorem render_missing_independent (q : List Char) (params : List (String × Val))
    (df : Option Frame)
    (h : ∃ tok ∈ splitTemplate q, [obr, '%'].isPrefixOf tok = true ∧
      List.lookup (paramName (innerOf tok)) params = none) :
    (∃ e, render df params q = .error e) ∧
    ((∀ t ∈ splitTemplate q, [obr, obr].isPrefixOf t = false) →
      ∃ m, render df params q = .error (.independentParameter m)) := by
  obtain ⟨e, he, himp⟩ := renderTokens_missing_indep (splitTemplate q) params df h
  refine ⟨⟨e, he⟩, fun hall => ?_⟩
  obtain ⟨m, hm⟩ := himp hall
  exact ⟨m, hm ▸ he⟩

/-- Claim C4 witness: the independent-only template with the token
`[% id|value:int %]`-shaped opener, rendered against a non-empty map lacking
`id` and no frame, fails with `IndependentParameterError`. -/
theorem render_missing_independent_witness :
    (∃ e, render none [("x", Val.vint 1)]
        ([obr, '%'] ++ [' ', 'i', 'd', '|', 'v', 'a', 'l', 'u', 'e', ':',
          'i', 'n', 't', ' '] ++ ['%', cbr]) = .error e) ∧
    (∃ m, render none [("x", Val.vint 1)]
        ([obr, '%'] ++ [' ', 'i', 'd', '|', 'v', 'a', 'l', 'u', 'e', ':',
          'i', 'n', 't', ' '] ++ ['%', cbr])
      = .error (.independentParameter m)) :=
  ⟨(render_missing_independent _ [("x", Val.vint 1)] none (by decide)).1,
   (render_missing_independent _ [("x", Val.vint 1)] none (by decide)).2 (by decide)⟩

/-- Claim C5 counterexample: the template of two opening braces followed by
`x` contains no complete dependent token (there is no closing pair), yet
`has_dependent_parameters` returns `True` — the split leaves the whole
string as one piece, which starts with two opening braces. -/
theorem has_dependent_counterexample :
    containsCompleteDepToken [obr, obr, 'x'] = false ∧
    hasDependentParameters [obr, obr, 'x'] = true := by
  decide

/-- Claim C5 (amended): for every template in which the two-character
sequence of two opening braces does not occur at all,
`has_dependent_parameters` is `False` and `render` does not depend on the
`df` argument. -/
theorem no_dd_template_independent (q : List Char) (h : hasDD q = false) :
    hasDependentParameters q = false ∧
    ∀ (df₁ df₂ : Option Frame) (params : List (String × Val)),
      render df₁ params q = render df₂ params q := by
  constructor
  · unfold hasDependentParameters
    refine List.any_eq_false.mpr ?_
    intro t ht
    have hf := scanDepAux_no_dep (q.length + 1) [] q (by simpa using h) t ht
    simp [hf]
  · intro df₁ df₂ params
    unfold render splitTemplate
    exact renderTokens_df_irrelevant _
      (fun t ht => scanAux_no_dep (q.length + 1) [] q (by simpa using h) t ht)
      df₁ df₂ params

/-- Claim C5 witness: a brace-free-opener template with one independent
token: no dependent parameters, and rendering with a frame equals rendering
without one. -/
theorem no_dd_template_independent_witness :
    hasDD ['S', ' ', obr, '%', 'a', '%', cbr] = false ∧
    hasDependentParameters ['S', ' ', obr, '%', 'a', '%', cbr] = false ∧
    render (some [("a", [Val.vint 1])]) [] ['S', ' ', obr, '%', 'a', '%', cbr]
      = render none [] ['S', ' ', obr, '%', 'a', '%', cbr] :=
  ⟨by decide,
   (no_dd_template_independent ['S', ' ', obr, '%', 'a', '%', cbr] (by decide)).1,
   (no_dd_template_independent ['S', ' ', obr, '%', 'a', '%', cbr] (by decide)).2
     (some [("a", [Val.vint 1])]) none []⟩

/-- Claim C7: on a frame whose flattened column holds sequence cells,
`Flatten` expands each element into its own row with all other columns
replicated from the originating row, rows in lexicographic
(original-row, element) order — each other column becomes the concatenation,
over the original rows, of that row's value repeated once per element, and
the flattened column becomes the concatenation of the cells.  Row positions
are renumbered from zero (the model's frames are positionally indexed). -/
theorem flatten_expands (df : Frame) (column : String) (cells : List (List Val))
    (h : lookupCol column df = some (cells.map Val.vlist)) :
    flattenExec column df
      = some ((df.filter (fun c => c.1 != column)).map
          (fun c => (c.1,
            (List.zipWith (fun ys v => List.replicate ys.length v) cells c.2).flatten))
          ++ [(column, cells.flatten)]) := by
  simp only [flattenExec, h, allLists_map]
  refine congrArg some ?_
  refine congrArg₂ (· ++ ·) ?_ ?_
  · refine List.map_eq_map_iff.mpr ?_
    intro c _
    refine congrArg (Prod.mk c.1) ?_
    rw [mergeRepAux_spec cells c.2 0, List.drop_zero]
  · refine congrArg (fun l => [(column, l)]) ?_
    rw [mergeFlatAux_spec cells cells.length 0 (by omega), List.drop_zero]

/-- Claim C7 witness: the S5 scenario — `id=[1,2], tags=[[x,y],[z]]`
flattens to `id=[1,1,2], tags=[x,y,z]`. -/
theorem flatten_expands_witness :
    flattenExec "tags"
        [("id", [Val.vint 1, Val.vint 2]),
         ("tags", [Val.vlist [Val.vstr "x", Val.vstr "y"], Val.vlist [Val.vstr "z"]])]
      = some [("id", [Val.vint 1, Val.vint 1, Val.vint 2]),
              ("tags", [Val.vstr "x", Val.vstr "y", Val.vstr "z"])] :=
  (flatten_expands
      [("id", [Val.vint 1, Val.vint 2]),
       ("tags", [Val.vlist [Val.vstr "x", Val.vstr "y"], Val.vlist [Val.vstr "z"]])]
      "tags" [[Val.vstr "x", Val.vstr "y"], [Val.vstr "z"]] (by decide)).trans
    (by decide)

/-- Claim C3 (amended): the fold phase joins exactly the root's direct
children (the shallow iterator keeps deeper nodes out of the ordering), in
reverse of their declared order: the join trace is the reverse of the
children's name list, and the root frame is the right fold that merges the
last-declared child first, each merge replacing the parent frame. -/
theorem fold_children_reverse_declared (n : String) (cs : List QNode)
    (join : String → Frame → Frame → Frame) (dfs : String → Frame) :
    foldJoinTrace (QNode.mk n cs) = (cs.map QNode.qname).reverse ∧
    foldChildrenDf join dfs (QNode.mk n cs)
      = cs.foldr (fun c acc => join c.qname acc (dfs c.qname)) (dfs n) := by
  constructor
  · unfold foldJoinTrace
    rw [foldOrdering_eq, List.map_reverse]
  · unfold foldChildrenDf
    rw [foldOrdering_eq, qname_mk, List.foldl_reverse]

end QuerygraphProof
